import Mathlib

/-!
Shallow embedding of `RuleTree.h`: a rule-gated, weighted-random decision
tree.  Child nodes are identified by their index in the owning branch's
child list (the C++ code identifies them by pointer; indices play the role
of pointers, and an index `≥` the child count models a pointer that is not
in `m_nodes`).  The C++ global `rand()` source is modelled as a stream of
naturals `Nat → Nat` that is consumed one draw at a time.
-/

namespace RuleTree

/-- The exceptions thrown by the configuration layer.  The C++ code throws a
generic `Exception` with a message; the four distinct throw sites get four
distinct constructors. `divisionByZero` stands for the undefined behaviour of
`100 / m_nodes.size()` when a branch has no children. -/
inductive ConfigurationError where
  | badPercentAllocation (total : Nat)
  | nodeNotInBranch
  | randomNodeWhenNotFull (total : Nat)
  | divisionByZero
deriving DecidableEq, Repr

/-- The random source: successive calls to `rand()` return `rs 0, rs 1, …`. -/
abbrev RandStream := Nat → Nat

/-- Advancing the random source past one consumed draw. -/
def RandStream.next (rs : RandStream) : RandStream := fun i => rs (i + 1)

/-- The allocation bookkeeping of a `Branch`:
`m_percentageAllocations` (the 100-entry slot table, a slot holds the index
of the owning child or `none` for a null pointer), `m_nodesPercentageMap`
(per-child-index allocated percentage; `std::map` access through
`operator[]` default-constructs absent entries to `0`, which the
fixed-length list with default `0` reproduces), and `m_lastAllocated`
(the running total). -/
structure Alloc where
  percentageAllocations : List (Option Nat)
  nodesPercentageMap : List Nat
  lastAllocated : Nat
deriving DecidableEq, Repr

/-- The allocation state of a branch with `n` children on which no
allocation has been performed: running total `0`, no slot owned, every
per-child percentage `0`.  (In the C++ source the freshly constructed array
is uninitialized and the map is empty; no operation reads a slot below the
running total or distinguishes an absent map entry from `0`, so the all-none
/ all-zero state is the observable initial state, and it is literally the
state `ResetAllocations` produces.) -/
def Alloc.fresh (n : Nat) : Alloc :=
  ⟨List.replicate 100 none, List.replicate n 0, 0⟩

/-- The slot-assignment loop of `AllocatePercentage`
(`for (i = m_lastAllocated; i < m_lastAllocated + percentage; i++)
  m_percentageAllocations[i] = node;`), writing `count` slots from `start`. -/
def writeSlots : List (Option Nat) → Nat → Nat → Nat → List (Option Nat)
  | slots, _, 0, _ => slots
  | slots, start, count + 1, node => writeSlots (slots.set start (some node)) (start + 1) count node

/-- `Branch::AllocatePercentage(percentage, node)` for a branch with
`numNodes` children.  Checks (in source order) that the new running total
does not exceed `100`, then that `node` is a registered child; only then are
the slot table, the per-child map and the running total updated. -/
def AllocatePercentage (numNodes : Nat) (a : Alloc) (percentage : Nat) (node : Nat) :
    Except ConfigurationError Alloc :=
  if a.lastAllocated + percentage > 100 then
    .error (.badPercentAllocation (a.lastAllocated + percentage))
  else if numNodes ≤ node then
    .error .nodeNotInBranch
  else
    .ok ⟨writeSlots a.percentageAllocations a.lastAllocated percentage node,
         a.nodesPercentageMap.set node (a.nodesPercentageMap.getD node 0 + percentage),
         a.lastAllocated + percentage⟩

/-- The branch's allocation state after a call to `AllocatePercentage`
returns or throws.  Both throw sites precede every mutation in the source,
so a throwing call leaves the state it was entered with. -/
def AllocatePercentageRun (numNodes : Nat) (a : Alloc) (percentage : Nat) (node : Nat) : Alloc :=
  match AllocatePercentage numNodes a percentage node with
  | .ok a' => a'
  | .error _ => a

/-- `Branch::getRandomNode` given the value `draw` returned by `rand()`:
throws unless the running total is exactly `100`, otherwise returns the
slot-table entry at `draw % 100`. -/
def getRandomNode (a : Alloc) (draw : Nat) : Except ConfigurationError (Option Nat) :=
  if a.lastAllocated ≠ 100 then .error (.randomNodeWhenNotFull a.lastAllocated)
  else .ok (a.percentageAllocations.getD (draw % 100) none)

/-- Well-formedness of a branch's allocation state with `n` children: the
slot table has its 100 entries, the per-child map one entry per child, the
running total is within budget, and every slot below the running total is
owned by a registered child.  It holds for the fresh state and is preserved
by `AllocatePercentage`. -/
def Alloc.WF (n : Nat) (a : Alloc) : Prop :=
  a.percentageAllocations.length = 100 ∧
  a.nodesPercentageMap.length = n ∧
  a.lastAllocated ≤ 100 ∧
  ∀ i, i < a.lastAllocated → ∃ j, j < n ∧ a.percentageAllocations.getD i none = some j

instance (n : Nat) (a : Alloc) : Decidable (Alloc.WF n a) := by
  unfold Alloc.WF
  infer_instance

/-- The first loop of `Branch::SpreadPercentage`: allocate
`probabilityPerNode` to each child in order, starting at child `i`. -/
def allocateEach (numNodes : Nat) (a : Alloc) (p : Nat) (i : Nat) :
    Except ConfigurationError Alloc :=
  if i < numNodes then
    match AllocatePercentage numNodes a p i with
    | .error e => .error e
    | .ok a' => allocateEach numNodes a' p (i + 1)
  else .ok a
termination_by numNodes - i

/-- The remainder loop of `Branch::SpreadPercentage`: walk the children from
index `i`; at each child first return if `diff` is exhausted, otherwise
allocate one percent and decrement `diff`. -/
def spreadRemainder (numNodes : Nat) (a : Alloc) (diff : Nat) (i : Nat) :
    Except ConfigurationError Alloc :=
  if i < numNodes then
    if diff = 0 then .ok a
    else
      match AllocatePercentage numNodes a 1 i with
      | .error e => .error e
      | .ok a' => spreadRemainder numNodes a' (diff - 1) (i + 1)
  else .ok a
termination_by numNodes - i

/-- `Branch::SpreadPercentage` on a branch with `numNodes` children:
computes `100 / numNodes` (undefined behaviour in the source when there are
no children, made an explicit error here), allocates that share to every
child, and if the running total has not reached `100` hands the difference
out one percent at a time in insertion order. -/
def SpreadPercentage (numNodes : Nat) (a : Alloc) : Except ConfigurationError Alloc :=
  if numNodes = 0 then .error .divisionByZero
  else
    let probabilityPerNode := 100 / numNodes
    match allocateEach numNodes a probabilityPerNode 0 with
    | .error e => .error e
    | .ok a1 =>
      if a1.lastAllocated ≠ 100 then
        spreadRemainder numNodes a1 (100 - a1.lastAllocated) 0
      else .ok a1

/-- `RuleTree::Rule`: wraps a boolean predicate over the routing subject;
`Check` returns the predicate's verdict verbatim. -/
structure Rule (C : Type) where
  ruleFunction : C → Bool

/-- `Rule::Check`. -/
def Rule.Check (r : Rule C) (parent : C) : Bool := r.ruleFunction parent

/-- `TreeNode::allRulesPassed`: every attached rule accepts the subject,
short-circuiting on the first failure; an empty rule list passes. -/
def allRulesPassed (rules : List (Rule C)) (parent : C) : Bool :=
  rules.all fun r => r.Check parent

/-- `Branch::MAX_TRIES`. -/
def MAX_TRIES : Nat := 100000

/-- The two closed node shapes of the tree (`Leaf` and `Branch`), with the
`TreeNode` data (name and rule list) inlined into each.  A branch carries
its ordered child list `nodes` and its allocation bookkeeping. -/
inductive Node (C R : Type) where
  | leaf (name : String) (rules : List (Rule C)) (val : R)
  | branch (name : String) (rules : List (Rule C)) (nodes : List (Node C R)) (alloc : Alloc)

/-- `Named::GetName`. -/
def Node.name : Node C R → String
  | .leaf nm _ _ => nm
  | .branch nm _ _ _ => nm

/-- `TreeNode::IsLeaf`. -/
def Node.IsLeaf : Node C R → Bool
  | .leaf _ _ _ => true
  | .branch _ _ _ _ => false

mutual

/-- `TreeNode::Get`.  A leaf returns its value if its rules pass; a branch
whose rules pass runs the `MAX_TRIES`-bounded random-selection loop.  The
result carries the remaining random stream; configuration exceptions wrap
the result in `Except.error`. -/
def Node.Get : Node C R → C → RandStream → Except ConfigurationError (Option R × RandStream)
  | .leaf _ rules val, parent, rs =>
    if allRulesPassed rules parent then .ok (some val, rs) else .ok (none, rs)
  | .branch _ rules nodes alloc, parent, rs =>
    if allRulesPassed rules parent then Node.getLoop nodes alloc MAX_TRIES parent rs
    else .ok (none, rs)
termination_by n => (sizeOf n, 0)
decreasing_by
simp_wf
exact Prod.Lex.left _ _ (by omega)

/-- The retry loop in `Branch::Get`, with `fuel` iterations remaining: draw
a random node (propagating the not-100 exception), skip a null slot, else
call the child's `Get` and return its result unless it is `none`. -/
def Node.getLoop : List (Node C R) → Alloc → Nat → C → RandStream →
    Except ConfigurationError (Option R × RandStream)
  | _, _, 0, _, rs => .ok (none, rs)
  | nodes, alloc, fuel + 1, parent, rs =>
    match getRandomNode alloc (rs 0) with
    | .error e => .error e
    | .ok none => Node.getLoop nodes alloc fuel parent rs.next
    | .ok (some j) =>
      match h : nodes[j]? with
      | none => Node.getLoop nodes alloc fuel parent rs.next
      | some child =>
        match child.Get parent rs.next with
        | .error e => .error e
        | .ok (some r, rs') => .ok (some r, rs')
        | .ok (none, rs') => Node.getLoop nodes alloc fuel parent rs'
termination_by nodes _ fuel => (sizeOf nodes, fuel)
decreasing_by
all_goals simp_wf
· exact Prod.Lex.right _ (Nat.lt_succ_self _)
· exact Prod.Lex.left _ _ (List.sizeOf_lt_of_mem (List.getElem?_mem h))
· exact Prod.Lex.right _ (Nat.lt_succ_self _)

end

/-- One attempt of the retry loop in `Branch::Get`: draw, look the slot up,
and run the owning child's `Get` on the rest of the stream.  A null slot
behaves like a child that returns no result (the draw is still consumed). -/
def getStep (nodes : List (Node C R)) (alloc : Alloc) (parent : C) (rs : RandStream) :
    Except ConfigurationError (Option R × RandStream) :=
  match getRandomNode alloc (rs 0) with
  | .error e => .error e
  | .ok none => .ok (none, rs.next)
  | .ok (some j) =>
    match nodes[j]? with
    | none => .ok (none, rs.next)
    | some child => child.Get parent rs.next

mutual

/-- `TreeNode::GetNodeByName`: a leaf matches itself or fails; a branch
first checks its own name, then asks each child in order and returns the
first non-null answer. -/
def Node.GetNodeByName : Node C R → String → Option (Node C R)
  | .leaf nm rules val, name => if nm = name then some (.leaf nm rules val) else none
  | .branch nm rules nodes alloc, name =>
    if nm = name then some (.branch nm rules nodes alloc)
    else Node.findInNodes nodes name
termination_by n => sizeOf n

/-- The child loop of `Branch::GetNodeByName`. -/
def Node.findInNodes : List (Node C R) → String → Option (Node C R)
  | [], _ => none
  | n :: ns, name =>
    match n.GetNodeByName name with
    | some result => some result
    | none => Node.findInNodes ns name
termination_by ns => sizeOf ns

end

mutual

/-- The self-first depth-first pre-order listing of the subtree rooted at a
node — the visit order of `GetNodeByName`. -/
def Node.preorder : Node C R → List (Node C R)
  | .leaf nm rules val => [.leaf nm rules val]
  | .branch nm rules nodes alloc => .branch nm rules nodes alloc :: Node.preorderList nodes
termination_by n => sizeOf n

/-- Pre-order listing of a forest, in order. -/
def Node.preorderList : List (Node C R) → List (Node C R)
  | [] => []
  | n :: ns => n.preorder ++ Node.preorderList ns
termination_by ns => sizeOf ns

end

/-- The node reached from `t` by following a list of child indices
(`[]` is `t` itself); `none` when the path leaves the tree. -/
def Node.subnode : Node C R → List Nat → Option (Node C R)
  | t, [] => some t
  | .leaf _ _ _, _ :: _ => none
  | .branch _ _ nodes _, i :: p =>
    match nodes[i]? with
    | some child => child.subnode p
    | none => none

mutual

/-- `Branch::ResetAllocations`: clear the running total, null every slot,
zero every child's map entry, and recurse into the branch children
(leaves are skipped — they hold no allocation state). -/
def Node.ResetAllocations : Node C R → Node C R
  | .leaf nm rules val => .leaf nm rules val
  | .branch nm rules nodes _ => .branch nm rules (Node.resetList nodes) (Alloc.fresh nodes.length)
termination_by n => sizeOf n

/-- The child loop of `ResetAllocations`. -/
def Node.resetList : List (Node C R) → List (Node C R)
  | [] => []
  | n :: ns => n.ResetAllocations :: Node.resetList ns
termination_by ns => sizeOf ns

end

mutual

/-- `Branch::SpreadPercentageOnAllNotSetNodes`: spread this branch if its
running total is still zero, then recurse into every branch child
(leaves are skipped); exceptions from `SpreadPercentage` propagate. -/
def Node.SpreadPercentageOnAllNotSetNodes : Node C R → Except ConfigurationError (Node C R)
  | .leaf nm rules val => .ok (.leaf nm rules val)
  | .branch nm rules nodes alloc =>
    match (if alloc.lastAllocated = 0 then SpreadPercentage nodes.length alloc else .ok alloc) with
    | .error e => .error e
    | .ok alloc' =>
      match Node.spreadList nodes with
      | .error e => .error e
      | .ok nodes' => .ok (.branch nm rules nodes' alloc')
termination_by n => sizeOf n

/-- The child loop of `SpreadPercentageOnAllNotSetNodes`. -/
def Node.spreadList : List (Node C R) → Except ConfigurationError (List (Node C R))
  | [] => .ok []
  | n :: ns =>
    match n.SpreadPercentageOnAllNotSetNodes with
    | .error e => .error e
    | .ok n' =>
      match Node.spreadList ns with
      | .error e => .error e
      | .ok ns' => .ok (n' :: ns')
termination_by ns => sizeOf ns

end

mutual

/-- Modelled from the spec: a freshly built tree "with identical children
that was never explicitly allocated" — the same shape, names and rules, with
every branch still in its observable initial allocation state (the builder
runs only `AddNode`/`AddRule`, which never touch the allocation fields). -/
def Node.freshBuild : Node C R → Node C R
  | .leaf nm rules val => .leaf nm rules val
  | .branch nm rules nodes _ => .branch nm rules (Node.freshBuildList nodes) (Alloc.fresh nodes.length)
termination_by n => sizeOf n

/-- `Node.freshBuild` on each tree of a forest. -/
def Node.freshBuildList : List (Node C R) → List (Node C R)
  | [] => []
  | n :: ns => n.freshBuild :: Node.freshBuildList ns
termination_by ns => sizeOf ns

end

/-- The `TreeNode` base-class state relevant to parent tracking.  The
parent pointer is `Option Nat` (an identifier of the owning branch, `none`
for a null pointer). -/
structure TreeNodeBase where
  name : String
  parent : Option Nat

/-- The `TreeNode` constructor (`explicit TreeNode(Named::NameString name) :
Named(name) { }`): it initializes only the name; the member `m_parent` has
no initializer and no default, so a freshly constructed node carries
whatever indeterminate value its storage held — the constructor therefore
takes that indeterminate initial value as a parameter. -/
def TreeNodeBase.construct (name : String) (indeterminateParent : Option Nat) : TreeNodeBase :=
  ⟨name, indeterminateParent⟩

/-- `TreeNode::GetParent`. -/
def TreeNodeBase.GetParent (t : TreeNodeBase) : Option Nat := t.parent

/-- `TreeNode::SetParent` (called by `Branch::AddNode` on the added child). -/
def TreeNodeBase.SetParent (t : TreeNodeBase) (node : Option Nat) : TreeNodeBase :=
  { t with parent := node }

/-- Structural induction principle for `Node` that hands the branch case
the induction hypothesis for every member of the child list. -/
def Node.recMem {motive : Node C R → Prop}
    (hleaf : ∀ nm rules val, motive (.leaf nm rules val))
    (hbranch : ∀ nm rules nodes alloc,
      (∀ c ∈ nodes, motive c) → motive (.branch nm rules nodes alloc)) :
    ∀ t, motive t
  | .leaf nm rules val => hleaf nm rules val
  | .branch nm rules nodes alloc =>
    hbranch nm rules nodes alloc fun c hc =>
      Node.recMem hleaf hbranch c
termination_by t => sizeOf t
decreasing_by
have h1 := List.sizeOf_lt_of_mem hc
simp_wf
omega

/-! ## Helper lemmas about the slot table and `AllocatePercentage` -/

theorem writeSlots_length :
    ∀ (count : Nat) (slots : List (Option Nat)) (start node : Nat),
    (writeSlots slots start count node).length = slots.length := by
  intro count
  induction count with
  | zero => intro slots start node; rfl
  | succ c ih =>
    intro slots start node
    rw [writeSlots, ih, List.length_set]

theorem writeSlots_getD_low :
    ∀ (count : Nat) (slots : List (Option Nat)) (start node i : Nat), i < start →
    (writeSlots slots start count node).getD i none = slots.getD i none := by
  intro count
  induction count with
  | zero => intro slots start node i _; rfl
  | succ c ih =>
    intro slots start node i hi
    rw [writeSlots, ih _ _ _ _ (Nat.lt_succ_of_lt hi)]
    have hne : ¬ start = i := by omega
    simp [List.getD_eq_getElem?_getD, List.getElem?_set, hne]

theorem writeSlots_getD_high :
    ∀ (count : Nat) (slots : List (Option Nat)) (start node i : Nat), start + count ≤ i →
    (writeSlots slots start count node).getD i none = slots.getD i none := by
  intro count
  induction count with
  | zero => intro slots start node i _; rfl
  | succ c ih =>
    intro slots start node i hi
    rw [writeSlots, ih _ _ _ _ (by omega)]
    have hne : ¬ start = i := by omega
    simp [List.getD_eq_getElem?_getD, List.getElem?_set, hne]

theorem writeSlots_getD_mid :
    ∀ (count : Nat) (slots : List (Option Nat)) (start node i : Nat),
    start ≤ i → i < start + count → i < slots.length →
    (writeSlots slots start count node).getD i none = some node := by
  intro count
  induction count with
  | zero => intro slots start node i h1 h2 _; omega
  | succ c ih =>
    intro slots start node i h1 h2 h3
    rw [writeSlots]
    rcases Nat.eq_or_lt_of_le h1 with he | hlt
    · rw [writeSlots_getD_low c _ (start + 1) node i (by omega)]
      subst he
      simp [List.getD_eq_getElem?_getD, List.getElem?_set, h3]
    · exact ih (slots.set start (some node)) (start + 1) node i (by omega) (by omega)
        (by rw [List.length_set]; exact h3)

/-- The success case of `AllocatePercentage`, fully unfolded. -/
theorem allocatePercentage_ok (numNodes : Nat) (a : Alloc) (percentage node : Nat)
    (hbudget : a.lastAllocated + percentage ≤ 100) (hchild : node < numNodes) :
    AllocatePercentage numNodes a percentage node =
      .ok ⟨writeSlots a.percentageAllocations a.lastAllocated percentage node,
           a.nodesPercentageMap.set node (a.nodesPercentageMap.getD node 0 + percentage),
           a.lastAllocated + percentage⟩ := by
  unfold AllocatePercentage
  rw [if_neg (by omega), if_neg (by omega)]

/-- `AllocatePercentage` throws exactly on budget overflow or a foreign node. -/
theorem allocatePercentage_error_iff (numNodes : Nat) (a : Alloc) (percentage node : Nat) :
    (∃ e, AllocatePercentage numNodes a percentage node = .error e) ↔
      (100 < a.lastAllocated + percentage ∨ numNodes ≤ node) := by
  unfold AllocatePercentage
  constructor
  · rintro ⟨e, he⟩
    by_cases h1 : a.lastAllocated + percentage > 100
    · exact Or.inl h1
    by_cases h2 : numNodes ≤ node
    · exact Or.inr h2
    rw [if_neg h1, if_neg h2] at he
    exact absurd he (by simp)
  · intro h
    by_cases h1 : a.lastAllocated + percentage > 100
    · exact ⟨_, by rw [if_pos h1]⟩
    · have h2 : numNodes ≤ node := by omega
      exact ⟨_, by rw [if_neg h1, if_pos h2]⟩

theorem Alloc.wf_fresh (n : Nat) : Alloc.WF n (Alloc.fresh n) := by
  refine ⟨by simp [Alloc.fresh], by simp [Alloc.fresh], Nat.zero_le _, ?_⟩
  intro i hi
  exact absurd hi (Nat.not_lt_zero i)

theorem Alloc.wf_allocate {n : Nat} {a a' : Alloc} {p j : Nat} (hw : Alloc.WF n a)
    (h : AllocatePercentage n a p j = .ok a') : Alloc.WF n a' := by
  obtain ⟨hs, hm, hl, hslots⟩ := hw
  by_cases h1 : a.lastAllocated + p > 100
  · rw [AllocatePercentage, if_pos h1] at h; exact absurd h (by simp)
  by_cases h2 : n ≤ j
  · rw [AllocatePercentage, if_neg h1, if_pos h2] at h; exact absurd h (by simp)
  rw [allocatePercentage_ok n a p j (by omega) (by omega)] at h
  injection h with h'
  subst h'
  refine ⟨by rw [writeSlots_length, hs], by rw [List.length_set, hm],
    show a.lastAllocated + p ≤ 100 by omega, ?_⟩
  intro i hi
  have hi' : i < a.lastAllocated + p := hi
  rcases Nat.lt_or_ge i a.lastAllocated with hlo | hmid
  · obtain ⟨k, hk, hk2⟩ := hslots i hlo
    exact ⟨k, hk, by rw [writeSlots_getD_low _ _ _ _ _ hlo]; exact hk2⟩
  · refine ⟨j, by omega, ?_⟩
    exact writeSlots_getD_mid p a.percentageAllocations a.lastAllocated j i hmid hi'
      (by rw [hs]; omega)

/-! ## Claims C2, C3, C4 -/

/-- C2: weighted child selection (`Branch::getRandomNode`) throws a
ConfigurationError exactly when the running total differs from 100; on a
well-formed allocation state whose running total is 100 it never throws and
always yields a registered child. -/
theorem claim_C2 (n : Nat) (a : Alloc) (draw : Nat) :
    ((∃ e, getRandomNode a draw = .error e) ↔ a.lastAllocated ≠ 100) ∧
    (Alloc.WF n a → a.lastAllocated = 100 →
      ∃ j, j < n ∧ getRandomNode a draw = .ok (some j)) := by
  constructor
  · unfold getRandomNode
    constructor
    · rintro ⟨e, he⟩
      intro hc
      rw [if_neg (by simpa using hc)] at he
      exact absurd he (by simp)
    · intro h
      exact ⟨_, by rw [if_pos h]⟩
  · intro hw h100
    obtain ⟨j, hj, hslot⟩ := hw.2.2.2 (draw % 100) (by rw [h100]; exact Nat.mod_lt _ (by omega))
    refine ⟨j, hj, ?_⟩
    rw [getRandomNode, if_neg (by simp [h100]), hslot]

theorem claim_C2_witness :
    (Alloc.WF 1 ⟨List.replicate 100 (some 0), [100], 100⟩ ∧
      (⟨List.replicate 100 (some 0), [100], 100⟩ : Alloc).lastAllocated = 100) ∧
    ∃ j, j < 1 ∧ getRandomNode ⟨List.replicate 100 (some 0), [100], 100⟩ 42 = .ok (some j) :=
  ⟨⟨by decide, rfl⟩,
    (claim_C2 1 ⟨List.replicate 100 (some 0), [100], 100⟩ 42).2 (by decide) rfl⟩

/-- C3: a successful `AllocatePercentage(percentage, node)` writes `node`
into exactly the `percentage` slots starting at the running total (all other
slots untouched), adds `percentage` to that node's map entry (all other
entries untouched), and advances the running total by `percentage`. -/
theorem claim_C3 (numNodes : Nat) (a : Alloc) (percentage node : Nat)
    (hwf : Alloc.WF numNodes a)
    (hbudget : a.lastAllocated + percentage ≤ 100) (hchild : node < numNodes) :
    ∃ a', AllocatePercentage numNodes a percentage node = .ok a' ∧
      a'.lastAllocated = a.lastAllocated + percentage ∧
      (∀ i, a.lastAllocated ≤ i → i < a.lastAllocated + percentage →
        a'.percentageAllocations.getD i none = some node) ∧
      (∀ i, i < a.lastAllocated ∨ a.lastAllocated + percentage ≤ i →
        a'.percentageAllocations.getD i none = a.percentageAllocations.getD i none) ∧
      a'.nodesPercentageMap.getD node 0 = a.nodesPercentageMap.getD node 0 + percentage ∧
      (∀ m, m ≠ node → a'.nodesPercentageMap.getD m 0 = a.nodesPercentageMap.getD m 0) := by
  refine ⟨_, allocatePercentage_ok numNodes a percentage node hbudget hchild, rfl, ?_, ?_, ?_, ?_⟩
  · intro i h1 h2
    exact writeSlots_getD_mid percentage a.percentageAllocations a.lastAllocated node i h1 h2
      (by rw [hwf.1]; omega)
  · intro i hi
    rcases hi with hi | hi
    · exact writeSlots_getD_low percentage a.percentageAllocations a.lastAllocated node i hi
    · exact writeSlots_getD_high percentage a.percentageAllocations a.lastAllocated node i hi
  · have hnode : node < a.nodesPercentageMap.length := by rw [hwf.2.1]; exact hchild
    simp [List.getD_eq_getElem?_getD, List.getElem?_set, hnode]
  · intro m hm
    have hne : ¬ node = m := fun he => hm he.symm
    simp [List.getD_eq_getElem?_getD, List.getElem?_set, hne]

theorem claim_C3_witness :
    (Alloc.WF 2 (Alloc.fresh 2) ∧ (Alloc.fresh 2).lastAllocated + 60 ≤ 100 ∧ 0 < 2) ∧
    ∃ a', AllocatePercentage 2 (Alloc.fresh 2) 60 0 = .ok a' ∧
      a'.lastAllocated = (Alloc.fresh 2).lastAllocated + 60 ∧
      (∀ i, (Alloc.fresh 2).lastAllocated ≤ i → i < (Alloc.fresh 2).lastAllocated + 60 →
        a'.percentageAllocations.getD i none = some 0) ∧
      (∀ i, i < (Alloc.fresh 2).lastAllocated ∨ (Alloc.fresh 2).lastAllocated + 60 ≤ i →
        a'.percentageAllocations.getD i none = (Alloc.fresh 2).percentageAllocations.getD i none) ∧
      a'.nodesPercentageMap.getD 0 0 = (Alloc.fresh 2).nodesPercentageMap.getD 0 0 + 60 ∧
      (∀ m, m ≠ 0 → a'.nodesPercentageMap.getD m 0 = (Alloc.fresh 2).nodesPercentageMap.getD m 0) :=
  ⟨⟨by decide, by decide, by decide⟩,
    claim_C3 2 (Alloc.fresh 2) 60 0 (by decide) (by decide) (by decide)⟩

/-- C4: `AllocatePercentage` fails exactly when the requested percentage
overruns the budget or the node is not a registered child, and a failing
call leaves the branch's allocation state unchanged. -/
theorem claim_C4 (numNodes : Nat) (a : Alloc) (percentage node : Nat) :
    ((∃ e, AllocatePercentage numNodes a percentage node = .error e) ↔
      (100 < a.lastAllocated + percentage ∨ numNodes ≤ node)) ∧
    (∀ e, AllocatePercentage numNodes a percentage node = .error e →
      AllocatePercentageRun numNodes a percentage node = a) := by
  refine ⟨allocatePercentage_error_iff numNodes a percentage node, ?_⟩
  intro e he
  rw [AllocatePercentageRun, he]

theorem claim_C4_witness :
    ((∃ e, AllocatePercentage 2 ⟨List.replicate 100 none, [60, 0], 60⟩ 50 0 = .error e) ↔
      (100 < (60 : Nat) + 50 ∨ (2 : Nat) ≤ 0)) ∧
    AllocatePercentageRun 2 ⟨List.replicate 100 none, [60, 0], 60⟩ 50 0 =
      ⟨List.replicate 100 none, [60, 0], 60⟩ :=
  have h := claim_C4 2 ⟨List.replicate 100 none, [60, 0], 60⟩ 50 0
  ⟨h.1, h.2 (.badPercentAllocation 110) (by rfl)⟩

/-! ## Claim C1: the retry loop of `Branch::Get` -/

/-- One unfolding of the retry loop: an attempt either propagates a
configuration exception, returns the first non-absent child result, or
continues with one unit of fuel less. -/
theorem getLoop_succ (nodes : List (Node C R)) (alloc : Alloc) (fuel : Nat) (parent : C)
    (rs : RandStream) :
    Node.getLoop nodes alloc (fuel + 1) parent rs =
      match getStep nodes alloc parent rs with
      | .error e => .error e
      | .ok (some r, rs') => .ok (some r, rs')
      | .ok (none, rs') => Node.getLoop nodes alloc fuel parent rs' := by
  rw [Node.getLoop, getStep]
  cases hR : getRandomNode alloc (rs 0) with
  | error e => rfl
  | ok oj =>
    cases oj with
    | none => rfl
    | some j =>
      dsimp only
      split
      · rename_i hN
        rw [hN]
      · rename_i child hN
        rw [hN]

/-- C1: `Branch::Get` returns absent at once, consuming no draw, when one of
the branch's own rules fails; otherwise it runs the retry loop for
`MAX_TRIES = 100000` attempts, where exhausted fuel yields absent, and each
attempt (one draw, one slot lookup, one child `Get`) either returns the
first non-absent child result immediately or passes the remaining stream to
the next attempt. -/
theorem claim_C1 (nm : String) (rules : List (Rule C)) (nodes : List (Node C R)) (alloc : Alloc)
    (parent : C) (rs : RandStream) :
    (allRulesPassed rules parent = false →
      (Node.branch nm rules nodes alloc).Get parent rs = .ok (none, rs)) ∧
    (allRulesPassed rules parent = true →
      (Node.branch nm rules nodes alloc).Get parent rs =
        Node.getLoop nodes alloc 100000 parent rs) ∧
    (Node.getLoop nodes alloc 0 parent rs = .ok (none, rs)) ∧
    (∀ fuel r rs', getStep nodes alloc parent rs = .ok (some r, rs') →
      Node.getLoop nodes alloc (fuel + 1) parent rs = .ok (some r, rs')) ∧
    (∀ fuel rs', getStep nodes alloc parent rs = .ok (none, rs') →
      Node.getLoop nodes alloc (fuel + 1) parent rs = Node.getLoop nodes alloc fuel parent rs') ∧
    (∀ fuel e, getStep nodes alloc parent rs = .error e →
      Node.getLoop nodes alloc (fuel + 1) parent rs = .error e) := by
  refine ⟨?_, ?_, ?_, ?_, ?_, ?_⟩
  · intro h
    rw [Node.Get, if_neg (by simp [h])]
  · intro h
    rw [Node.Get, if_pos h]
    rfl
  · rw [Node.getLoop]
  · intro fuel r rs' h
    rw [getLoop_succ, h]
  · intro fuel rs' h
    rw [getLoop_succ, h]
  · intro fuel e h
    rw [getLoop_succ, h]

theorem claim_C1_witness :
    (allRulesPassed [Rule.mk (fun _ => false)] 0 = false ∧
      (Node.branch "B" [Rule.mk (fun _ => false)] [Node.leaf "L" [] 7]
        ⟨List.replicate 100 (some 0), [100], 100⟩ : Node Nat Nat).Get 0 (fun _ => 0) =
        .ok (none, fun _ => 0)) ∧
    (getStep [(Node.leaf "L" [] 7 : Node Nat Nat)] ⟨List.replicate 100 (some 0), [100], 100⟩
        0 (fun _ => 0) = .ok (some 7, RandStream.next fun _ => 0) ∧
      Node.getLoop [(Node.leaf "L" [] 7 : Node Nat Nat)] ⟨List.replicate 100 (some 0), [100], 100⟩
        1 0 (fun _ => 0) = .ok (some 7, RandStream.next fun _ => 0)) :=
  have hstep : getStep [(Node.leaf "L" [] 7 : Node Nat Nat)]
      ⟨List.replicate 100 (some 0), [100], 100⟩ 0 (fun _ => 0) =
      .ok (some 7, RandStream.next fun _ => 0) := by
    rw [getStep]
    have h1 : getRandomNode ⟨List.replicate 100 (some 0), [100], 100⟩ ((fun _ => 0) 0) =
        .ok (some 0) := by rfl
    rw [h1]
    show (Node.leaf "L" [] 7 : Node Nat Nat).Get 0 (RandStream.next fun _ => 0) = _
    rw [Node.Get]
    rfl
  ⟨⟨rfl, (claim_C1 "B" [Rule.mk (fun _ => false)] [Node.leaf "L" [] 7]
      ⟨List.replicate 100 (some 0), [100], 100⟩ 0 (fun _ => 0)).1 rfl⟩,
    hstep,
    (claim_C1 "B" [] [Node.leaf "L" [] 7]
      ⟨List.replicate 100 (some 0), [100], 100⟩ 0 (fun _ => 0)).2.2.2.1 0 7 _ hstep⟩

/-! ## Claims C10 and C5: `SpreadPercentage` -/

theorem getD_set_self (l : List Nat) (j v : Nat) (h : j < l.length) :
    (l.set j v).getD j 0 = v := by
  simp [List.getD_eq_getElem?_getD, List.getElem?_set, h]

theorem getD_set_ne (l : List Nat) (j m v : Nat) (h : ¬ j = m) :
    (l.set j v).getD m 0 = l.getD m 0 := by
  simp [List.getD_eq_getElem?_getD, List.getElem?_set, h]

theorem allocatePercentage_no_div (numNodes : Nat) (a : Alloc) (p j : Nat) :
    AllocatePercentage numNodes a p j ≠ .error .divisionByZero := by
  unfold AllocatePercentage
  split
  · simp
  · split <;> simp

theorem allocateEach_no_div (numNodes : Nat) :
    ∀ (a : Alloc) (p i : Nat), allocateEach numNodes a p i ≠ .error .divisionByZero := by
  intro a p i
  induction a, p, i using allocateEach.induct numNodes with
  | case1 a p i hlt e he =>
    rw [allocateEach, if_pos hlt, he]
    have hne := allocatePercentage_no_div numNodes a p i
    rw [he] at hne
    simpa using hne
  | case2 a p i hlt a' ha ih =>
    rw [allocateEach, if_pos hlt, ha]
    simpa using ih
  | case3 a p i hge =>
    rw [allocateEach, if_neg hge]
    simp

theorem spreadRemainder_no_div (numNodes : Nat) :
    ∀ (a : Alloc) (diff i : Nat), spreadRemainder numNodes a diff i ≠ .error .divisionByZero := by
  intro a diff i
  induction a, diff, i using spreadRemainder.induct numNodes with
  | case1 a i hlt =>
    rw [spreadRemainder, if_pos hlt, if_pos rfl]
    simp
  | case2 a diff i hlt hd e he =>
    rw [spreadRemainder, if_pos hlt, if_neg hd, he]
    have hne := allocatePercentage_no_div numNodes a 1 i
    rw [he] at hne
    simpa using hne
  | case3 a diff i hlt hd a' ha ih =>
    rw [spreadRemainder, if_pos hlt, if_neg hd, ha]
    simpa using ih
  | case4 a diff i hge =>
    rw [spreadRemainder, if_neg hge]
    simp

/-- C10: `SpreadPercentage` starts by computing `100 / (number of children)`,
which is undefined for a childless branch (modelled as the explicit
`divisionByZero` error); when the branch has at least one child that error
branch is unreachable. -/
theorem claim_C10 (numNodes : Nat) (a : Alloc) :
    (numNodes = 0 → SpreadPercentage numNodes a = .error .divisionByZero) ∧
    (0 < numNodes → SpreadPercentage numNodes a ≠ .error .divisionByZero) := by
  constructor
  · intro h
    rw [SpreadPercentage, if_pos h]
  · intro h
    rw [SpreadPercentage, if_neg (by omega)]
    dsimp only
    cases hA : allocateEach numNodes a (100 / numNodes) 0 with
    | error e =>
      have hne := allocateEach_no_div numNodes a (100 / numNodes) 0
      rw [hA] at hne
      simpa using hne
    | ok a1 =>
      dsimp only
      split
      · exact spreadRemainder_no_div numNodes a1 (100 - a1.lastAllocated) 0
      · simp

theorem claim_C10_witness :
    (SpreadPercentage 0 (Alloc.fresh 0) = .error .divisionByZero) ∧
    (0 < 1 ∧ SpreadPercentage 1 (Alloc.fresh 1) ≠ .error .divisionByZero) :=
  ⟨(claim_C10 0 (Alloc.fresh 0)).1 rfl,
    Nat.one_pos, (claim_C10 1 (Alloc.fresh 1)).2 Nat.one_pos⟩

/-- The first loop of `SpreadPercentage`, fully characterised: starting at
child `i` with enough budget, it adds `p` percent to every child from `i`
on and advances the running total accordingly. -/
theorem allocateEach_spec (numNodes : Nat) :
    ∀ (a : Alloc) (p i : Nat), i ≤ numNodes →
    a.nodesPercentageMap.length = numNodes →
    a.lastAllocated + (numNodes - i) * p ≤ 100 →
    ∃ a', allocateEach numNodes a p i = .ok a' ∧
      a'.lastAllocated = a.lastAllocated + (numNodes - i) * p ∧
      a'.nodesPercentageMap.length = numNodes ∧
      (∀ j, j < i → a'.nodesPercentageMap.getD j 0 = a.nodesPercentageMap.getD j 0) ∧
      (∀ j, i ≤ j → j < numNodes →
        a'.nodesPercentageMap.getD j 0 = a.nodesPercentageMap.getD j 0 + p) := by
  intro a p i
  induction a, p, i using allocateEach.induct numNodes with
  | case1 a p i hlt e he =>
    intro _ _ hbud
    have hp : a.lastAllocated + p ≤ 100 := by
      have h1 : 1 * p ≤ (numNodes - i) * p := Nat.mul_le_mul_right p (by omega)
      omega
    rw [allocatePercentage_ok numNodes a p i hp hlt] at he
    exact absurd he (by simp)
  | case2 a p i hlt a' ha ih =>
    intro _ hlen hbud
    have hstep : numNodes - i = (numNodes - (i + 1)) + 1 := by omega
    have hbud' : a.lastAllocated + p + (numNodes - (i + 1)) * p ≤ 100 := by
      rw [hstep, Nat.succ_mul] at hbud
      omega
    rw [allocatePercentage_ok numNodes a p i (by omega) hlt] at ha
    injection ha with ha'
    subst ha'
    obtain ⟨a'', h1, h2, h3, h4, h5⟩ := ih (by omega)
      (by rw [List.length_set]; exact hlen) (by simpa using hbud')
    refine ⟨a'', by rw [allocateEach, if_pos hlt,
      allocatePercentage_ok numNodes a p i (by omega) hlt]; exact h1, ?_, h3, ?_, ?_⟩
    · rw [h2]
      show a.lastAllocated + p + (numNodes - (i + 1)) * p = _
      rw [hstep, Nat.succ_mul]
      omega
    · intro j hj
      rw [h4 j (by omega)]
      show (a.nodesPercentageMap.set i _).getD j 0 = _
      rw [getD_set_ne _ _ _ _ (by omega)]
    · intro j hij hjn
      rcases Nat.eq_or_lt_of_le hij with he | hlt2
      · rw [h4 j (by omega), ← he]
        show (a.nodesPercentageMap.set i _).getD i 0 = _
        rw [getD_set_self _ _ _ (by rw [hlen]; omega)]
      · rw [h5 j (by omega) hjn]
        show (a.nodesPercentageMap.set i _).getD j 0 + p = _
        rw [getD_set_ne _ _ _ _ (by omega)]
  | case3 a p i hge =>
    intro hle hlen _
    have hin : i = numNodes := by omega
    refine ⟨a, by rw [allocateEach, if_neg hge], by rw [hin]; simp, hlen, fun j _ => rfl, ?_⟩
    intro j hij hjn
    omega

/-- The remainder loop of `SpreadPercentage`, fully characterised: starting
at child `i` with `diff` percent left over and at least `diff` children
remaining, it gives one extra percent to children `i, …, i + diff - 1`. -/
theorem spreadRemainder_spec (numNodes : Nat) :
    ∀ (a : Alloc) (diff i : Nat),
    a.nodesPercentageMap.length = numNodes →
    a.lastAllocated + diff ≤ 100 → diff ≤ numNodes - i →
    ∃ a', spreadRemainder numNodes a diff i = .ok a' ∧
      a'.lastAllocated = a.lastAllocated + diff ∧
      a'.nodesPercentageMap.length = numNodes ∧
      (∀ j, j < i ∨ i + diff ≤ j → a'.nodesPercentageMap.getD j 0 = a.nodesPercentageMap.getD j 0) ∧
      (∀ j, i ≤ j → j < i + diff →
        a'.nodesPercentageMap.getD j 0 = a.nodesPercentageMap.getD j 0 + 1) := by
  intro a diff i
  induction a, diff, i using spreadRemainder.induct numNodes with
  | case1 a i hlt =>
    intro hlen _ _
    exact ⟨a, by rw [spreadRemainder, if_pos hlt, if_pos rfl], by omega, hlen,
      fun j _ => rfl, fun j h1 h2 => by omega⟩
  | case2 a diff i hlt hd e he =>
    intro _ hbud _
    rw [allocatePercentage_ok numNodes a 1 i (by omega) hlt] at he
    exact absurd he (by simp)
  | case3 a diff i hlt hd a' ha ih =>
    intro hlen hbud hrem
    rw [allocatePercentage_ok numNodes a 1 i (by omega) hlt] at ha
    injection ha with ha'
    subst ha'
    obtain ⟨a'', h1, h2, h3, h4, h5⟩ := ih (by rw [List.length_set]; exact hlen)
      (by show a.lastAllocated + 1 + (diff - 1) ≤ 100; omega) (by omega)
    refine ⟨a'', by rw [spreadRemainder, if_pos hlt, if_neg hd,
      allocatePercentage_ok numNodes a 1 i (by omega) hlt]; exact h1, ?_, h3, ?_, ?_⟩
    · rw [h2]
      show a.lastAllocated + 1 + (diff - 1) = _
      omega
    · intro j hj
      rw [h4 j (by omega)]
      show (a.nodesPercentageMap.set i _).getD j 0 = _
      rw [getD_set_ne _ _ _ _ (by omega)]
    · intro j hij hjd
      rcases Nat.eq_or_lt_of_le hij with he | hlt2
      · rw [h4 j (by omega), ← he]
        show (a.nodesPercentageMap.set i _).getD i 0 = _
        rw [getD_set_self _ _ _ (by rw [hlen]; exact hlt)]
      · rw [h5 j (by omega) (by omega)]
        show (a.nodesPercentageMap.set i _).getD j 0 + 1 = _
        rw [getD_set_ne _ _ _ _ (by omega)]
  | case4 a diff i hge =>
    intro hlen _ hrem
    have hd : diff = 0 := by omega
    subst hd
    exact ⟨a, by rw [spreadRemainder, if_neg hge], by omega, hlen,
      fun j _ => rfl, fun j h1 h2 => by omega⟩

/-- C5: `SpreadPercentage` on a branch with `n ≥ 1` children and running
total zero succeeds with running total exactly 100, each child allocated
`100 / n` percent plus one extra for the first `100 % n` children in
insertion order. -/
theorem claim_C5 (n : Nat) (a : Alloc) (hn : 0 < n) (hlast : a.lastAllocated = 0)
    (hmap : a.nodesPercentageMap = List.replicate n 0) :
    ∃ a', SpreadPercentage n a = .ok a' ∧ a'.lastAllocated = 100 ∧
      ∀ j, j < n → a'.nodesPercentageMap.getD j 0 =
        100 / n + (if j < 100 % n then 1 else 0) := by
  have hdm : n * (100 / n) + 100 % n = 100 := Nat.div_add_mod 100 n
  have hmap0 : ∀ j, a.nodesPercentageMap.getD j 0 = 0 := by
    intro j
    rw [hmap]
    rcases Nat.lt_or_ge j n with h | h
    · simp [List.getD_eq_getElem?_getD, List.getElem?_replicate, h]
    · simp [List.getD_eq_getElem?_getD, List.getElem?_replicate, Nat.not_lt_of_ge h]
  obtain ⟨a1, hA, hA1, hA2, _, hA4⟩ := allocateEach_spec n a (100 / n) 0 (Nat.zero_le n)
    (by rw [hmap, List.length_replicate]) (by rw [hlast, Nat.sub_zero]; omega)
  have ha1map : ∀ j, j < n → a1.nodesPercentageMap.getD j 0 = 100 / n := by
    intro j hj
    rw [hA4 j (Nat.zero_le j) hj, hmap0 j]
    omega
  have ha1last : a1.lastAllocated = n * (100 / n) := by
    rw [hA1, hlast, Nat.sub_zero]
    omega
  rw [SpreadPercentage, if_neg (by omega)]
  dsimp only
  rw [hA]
  dsimp only
  by_cases hmod : 100 % n = 0
  · rw [if_neg (by omega)]
    refine ⟨a1, rfl, by omega, ?_⟩
    intro j hj
    rw [ha1map j hj, hmod]
    simp
  · rw [if_pos (by omega)]
    obtain ⟨a2, hS, hS1, _, hS3, hS4⟩ := spreadRemainder_spec n a1 (100 - a1.lastAllocated) 0
      hA2 (by omega) (by have := Nat.mod_lt 100 hn; omega)
    have hdiff : 100 - a1.lastAllocated = 100 % n := by omega
    refine ⟨a2, hS, by omega, ?_⟩
    intro j hj
    rcases Nat.lt_or_ge j (100 % n) with hjm | hjm
    · rw [hS4 j (Nat.zero_le j) (by omega), ha1map j hj, if_pos hjm]
    · rw [hS3 j (Or.inr (by omega)), ha1map j hj, if_neg (by omega)]
      omega

theorem claim_C5_witness :
    (0 < 3 ∧ (Alloc.fresh 3).lastAllocated = 0 ∧
      (Alloc.fresh 3).nodesPercentageMap = List.replicate 3 0) ∧
    ∃ a', SpreadPercentage 3 (Alloc.fresh 3) = .ok a' ∧ a'.lastAllocated = 100 ∧
      ∀ j, j < 3 → a'.nodesPercentageMap.getD j 0 =
        100 / 3 + (if j < 100 % 3 then 1 else 0) :=
  ⟨⟨by decide, rfl, rfl⟩, claim_C5 3 (Alloc.fresh 3) (by decide) rfl rfl⟩

/-! ## Claim C9: the parent back-reference of a fresh node -/

/-- C9 (failing evaluation): the claim says a newly constructed node's
`GetParent` is the absent value, but the constructor never initializes
`m_parent`, so a fresh node returns whatever indeterminate value its storage
held — here a node whose storage held the non-null value `7`. -/
theorem claim_C9 :
    TreeNodeBase.GetParent (TreeNodeBase.construct "root" (some 7)) = some 7 ∧
    TreeNodeBase.GetParent (TreeNodeBase.construct "root" (some 7)) ≠ none := by
  exact ⟨rfl, by simp [TreeNodeBase.GetParent, TreeNodeBase.construct]⟩

/-! ## Claim C8: `GetNodeByName` is pre-order search -/

/-- Every member of a forest contributes its pre-order listing to the
forest's pre-order listing. -/
theorem mem_preorderList {c u : Node C R} :
    ∀ ns : List (Node C R), c ∈ ns → u ∈ c.preorder → u ∈ Node.preorderList ns := by
  intro ns
  induction ns with
  | nil => intro h; exact absurd h (List.not_mem_nil c)
  | cons n ns ih =>
    intro hc hu
    rw [Node.preorderList]
    rcases List.mem_cons.mp hc with rfl | hc'
    · exact List.mem_append_left _ hu
    · exact List.mem_append_right _ (ih hc' hu)

/-- `GetNodeByName` agrees with `find?` over the pre-order listing. -/
theorem getNodeByName_eq_find (t : Node C R) (name : String) :
    t.GetNodeByName name = t.preorder.find? (fun u => u.name == name) := by
  refine Node.GetNodeByName.induct
    (fun t name => t.GetNodeByName name = t.preorder.find? (fun u => u.name == name))
    (fun ns name => Node.findInNodes ns name =
      (Node.preorderList ns).find? (fun u => u.name == name))
    ?_ ?_ ?_ ?_ ?_ ?_ ?_ t name
  · intro rules val name
    rw [Node.GetNodeByName, Node.preorder, if_pos rfl, List.find?_cons]
    simp [Node.name]
  · intro nm rules val name hne
    rw [Node.GetNodeByName, Node.preorder, if_neg hne, List.find?_cons]
    have hb : ((Node.leaf nm rules val : Node C R).name == name) = false := by
      simp [Node.name, hne]
    rw [hb]
    rfl
  · intro rules nodes alloc name
    rw [Node.GetNodeByName, Node.preorder, if_pos rfl, List.find?_cons]
    simp [Node.name]
  · intro nm rules nodes alloc name hne ih
    rw [Node.GetNodeByName, Node.preorder, if_neg hne, List.find?_cons]
    have hpred : ((Node.branch nm rules nodes alloc : Node C R).name == name) = false := by
      simp [Node.name, hne]
    rw [hpred]
    exact ih
  · intro name
    rw [Node.findInNodes, Node.preorderList]
    rfl
  · intro n ns name result hfound ih
    rw [Node.findInNodes, hfound, Node.preorderList, List.find?_append, ← ih, hfound]
    rfl
  · intro n ns name hnone ih1 ih2
    rw [Node.findInNodes, hnone, Node.preorderList, List.find?_append, ← ih1, hnone]
    exact ih2

/-- A node reachable by any descent path lies in the pre-order listing. -/
theorem subnode_mem_preorder :
    ∀ (path : List Nat) (t u : Node C R), t.subnode path = some u → u ∈ t.preorder := by
  intro path
  induction path with
  | nil =>
    intro t u hu
    rw [Node.subnode] at hu
    injection hu with hu'
    subst hu'
    cases t with
    | leaf nm rules val => rw [Node.preorder]; exact List.mem_singleton_self _
    | branch nm rules nodes alloc => rw [Node.preorder]; exact List.mem_cons_self _ _
  | cons i p ih =>
    intro t u hu
    cases t with
    | leaf nm rules val => rw [Node.subnode] at hu; exact absurd hu (by simp)
    | branch nm rules nodes alloc =>
      rw [Node.subnode] at hu
      cases hc : nodes[i]? with
      | none => rw [hc] at hu; exact absurd hu (by simp)
      | some c =>
        rw [hc] at hu
        rw [Node.preorder]
        exact List.mem_cons_of_mem _
          (mem_preorderList nodes (List.getElem?_mem hc) (ih c u hu))

/-- C8: `GetNodeByName` is self-first depth-first pre-order search: on any
node it returns the first node of the pre-order listing of its subtree whose
name matches (`none` when no node matches); calling it with the node's own
name returns the node itself; and every node reachable by any descent path —
at any depth — is part of the searched listing. -/
theorem claim_C8 (t : Node C R) (name : String) :
    t.GetNodeByName name = t.preorder.find? (fun u => u.name == name) ∧
    t.GetNodeByName t.name = some t ∧
    ∀ (path : List Nat) (u : Node C R), t.subnode path = some u → u ∈ t.preorder := by
  refine ⟨getNodeByName_eq_find t name, ?_, ?_⟩
  · cases t with
    | leaf nm rules val => simp [Node.GetNodeByName, Node.name]
    | branch nm rules nodes alloc => simp [Node.GetNodeByName, Node.name]
  · intro path u hu
    exact subnode_mem_preorder path t u hu

theorem claim_C8_witness :
    ((Node.branch "B" [] [Node.leaf "L" [] 7] (Alloc.fresh 1) : Node Nat Nat).subnode [0] =
      some (Node.leaf "L" [] 7)) ∧
    (Node.branch "B" [] [Node.leaf "L" [] 7] (Alloc.fresh 1) : Node Nat Nat).GetNodeByName "L" =
      (Node.branch "B" [] [Node.leaf "L" [] 7] (Alloc.fresh 1) :
        Node Nat Nat).preorder.find? (fun u => u.name == "L") ∧
    (Node.branch "B" [] [Node.leaf "L" [] 7] (Alloc.fresh 1) : Node Nat Nat).GetNodeByName
      (Node.branch "B" [] [Node.leaf "L" [] 7] (Alloc.fresh 1) : Node Nat Nat).name =
      some (Node.branch "B" [] [Node.leaf "L" [] 7] (Alloc.fresh 1)) ∧
    Node.leaf "L" [] 7 ∈
      (Node.branch "B" [] [Node.leaf "L" [] 7] (Alloc.fresh 1) : Node Nat Nat).preorder :=
  have h := claim_C8 (Node.branch "B" [] [Node.leaf "L" [] 7] (Alloc.fresh 1) : Node Nat Nat) "L"
  ⟨rfl, h.1, h.2.1, h.2.2 [0] (Node.leaf "L" [] 7) rfl⟩

/-! ## Claim C7: reset-then-spread equals fresh-then-spread -/

/-- `ResetAllocations` produces exactly the tree the builder would have
produced without any allocation step. -/
theorem reset_eq_freshBuild : ∀ t : Node C R, t.ResetAllocations = t.freshBuild := by
  intro t
  induction t using Node.recMem with
  | hleaf nm rules val => rw [Node.ResetAllocations, Node.freshBuild]
  | hbranch nm rules nodes alloc ih =>
    rw [Node.ResetAllocations, Node.freshBuild]
    have hlist : Node.resetList nodes = Node.freshBuildList nodes := by
      clear alloc
      induction nodes with
      | nil => rw [Node.resetList, Node.freshBuildList]
      | cons n ns ihn =>
        rw [Node.resetList, Node.freshBuildList, ih n (List.mem_cons_self n ns),
          ihn (fun c hc => ih c (List.mem_cons_of_mem n hc))]
    rw [hlist]

/-- C7: `ResetAllocations` followed by `SpreadPercentageOnAllNotSetNodes`
produces exactly the same tree — same slot tables, per-child percentages and
running totals at every branch — as building the same tree afresh, never
allocating, and spreading. -/
theorem claim_C7 (t : Node C R) :
    (t.ResetAllocations).SpreadPercentageOnAllNotSetNodes =
      (t.freshBuild).SpreadPercentageOnAllNotSetNodes := by
  rw [reset_eq_freshBuild]

/-! ## Claim C6: selective recursive spreading -/

/-- The child loop of `SpreadPercentageOnAllNotSetNodes`, characterised
pointwise: on success every child is replaced by its own successful
recursive spread. -/
theorem spreadList_ok :
    ∀ (ns ns' : List (Node C R)), Node.spreadList ns = .ok ns' →
    ns'.length = ns.length ∧
    ∀ (i : Nat) (c : Node C R), ns[i]? = some c →
      ∃ c', ns'[i]? = some c' ∧ c.SpreadPercentageOnAllNotSetNodes = .ok c' := by
  intro ns
  induction ns with
  | nil =>
    intro ns' h
    rw [Node.spreadList] at h
    injection h with h'
    subst h'
    exact ⟨rfl, fun i c hc => absurd hc (by simp)⟩
  | cons n ms ih =>
    intro ns' h
    rw [Node.spreadList] at h
    cases hn : n.SpreadPercentageOnAllNotSetNodes with
    | error e => rw [hn] at h; exact absurd h (by simp)
    | ok n' =>
      rw [hn] at h
      cases hm : Node.spreadList ms with
      | error e => rw [hm] at h; exact absurd h (by simp)
      | ok ms' =>
        rw [hm] at h
        injection h with h'
        subst h'
        obtain ⟨hlen, hpt⟩ := ih ms' hm
        refine ⟨by simp [hlen], ?_⟩
        intro i c hc
        cases i with
        | zero =>
          rw [List.getElem?_cons_zero] at hc
          injection hc with hc'
          subst hc'
          exact ⟨n', by rw [List.getElem?_cons_zero], hn⟩
        | succ k =>
          rw [List.getElem?_cons_succ] at hc
          obtain ⟨c', hc', hs⟩ := hpt k c hc
          exact ⟨c', by rw [List.getElem?_cons_succ]; exact hc', hs⟩

/-- C6: a successful `SpreadPercentageOnAllNotSetNodes` call leaves every
branch of the tree (reached by any descent path) with its name, rules and
child count intact; a branch whose running total was nonzero keeps its
allocation state verbatim, while a branch whose running total was zero gets
exactly the state produced by `SpreadPercentage` over its children. -/
theorem claim_C6 :
    ∀ (path : List Nat) (t t' : Node C R),
    t.SpreadPercentageOnAllNotSetNodes = .ok t' →
    ∀ (nm : String) (rules : List (Rule C)) (cs : List (Node C R)) (a : Alloc),
    t.subnode path = some (.branch nm rules cs a) →
    ∃ cs' a', t'.subnode path = some (.branch nm rules cs' a') ∧
      cs'.length = cs.length ∧
      (a.lastAllocated ≠ 0 → a' = a) ∧
      (a.lastAllocated = 0 → SpreadPercentage cs.length a = .ok a') := by
  intro path
  induction path with
  | nil =>
    intro t t' h nm rules cs a hsub
    rw [Node.subnode] at hsub
    injection hsub with hsub'
    subst hsub'
    rw [Node.SpreadPercentageOnAllNotSetNodes] at h
    cases hA : (if a.lastAllocated = 0 then SpreadPercentage cs.length a else Except.ok a) with
    | error e => rw [hA] at h; exact absurd h (by simp)
    | ok a2 =>
      rw [hA] at h
      cases hL : Node.spreadList cs with
      | error e => rw [hL] at h; exact absurd h (by simp)
      | ok cs2 =>
        rw [hL] at h
        injection h with h'
        subst h'
        obtain ⟨hlen, _⟩ := spreadList_ok cs cs2 hL
        refine ⟨cs2, a2, by rw [Node.subnode], hlen, ?_, ?_⟩
        · intro hne
          rw [if_neg hne] at hA
          injection hA with hA'
          exact hA'.symm
        · intro hz
          rw [if_pos hz] at hA
          exact hA
  | cons i p ih =>
    intro t t' h nm rules cs a hsub
    cases t with
    | leaf nm0 rules0 val =>
      rw [Node.subnode] at hsub
      exact absurd hsub (by simp)
    | branch nm0 rules0 cs0 a0 =>
      rw [Node.subnode] at hsub
      cases hc : cs0[i]? with
      | none => rw [hc] at hsub; exact absurd hsub (by simp)
      | some c =>
        rw [hc] at hsub
        rw [Node.SpreadPercentageOnAllNotSetNodes] at h
        cases hA : (if a0.lastAllocated = 0 then SpreadPercentage cs0.length a0
            else Except.ok a0) with
        | error e => rw [hA] at h; exact absurd h (by simp)
        | ok a2 =>
          rw [hA] at h
          cases hL : Node.spreadList cs0 with
          | error e => rw [hL] at h; exact absurd h (by simp)
          | ok cs2 =>
            rw [hL] at h
            injection h with h'
            subst h'
            obtain ⟨hlen, hpt⟩ := spreadList_ok cs0 cs2 hL
            obtain ⟨c', hc', hcs⟩ := hpt i c hc
            obtain ⟨cs'', a'', hsub'', hrest⟩ := ih c c' hcs nm rules cs a hsub
            exact ⟨cs'', a'', by rw [Node.subnode, hc']; exact hsub'', hrest⟩

theorem claim_C6_witness :
    ((Node.branch "B" [] [] ⟨[], [], 100⟩ : Node Nat Nat).SpreadPercentageOnAllNotSetNodes =
        .ok (Node.branch "B" [] [] ⟨[], [], 100⟩) ∧
      (Node.branch "B" [] [] ⟨[], [], 100⟩ : Node Nat Nat).subnode [] =
        some (Node.branch "B" [] [] ⟨[], [], 100⟩)) ∧
    ∃ cs' a', (Node.branch "B" [] [] ⟨[], [], 100⟩ : Node Nat Nat).subnode [] =
        some (Node.branch "B" [] cs' a') ∧
      cs'.length = ([] : List (Node Nat Nat)).length ∧
      ((⟨[], [], 100⟩ : Alloc).lastAllocated ≠ 0 → a' = ⟨[], [], 100⟩) ∧
      ((⟨[], [], 100⟩ : Alloc).lastAllocated = 0 →
        SpreadPercentage ([] : List (Node Nat Nat)).length ⟨[], [], 100⟩ = .ok a') :=
  have hs : (Node.branch "B" [] [] ⟨[], [], 100⟩ : Node Nat Nat).SpreadPercentageOnAllNotSetNodes =
      .ok (Node.branch "B" [] [] ⟨[], [], 100⟩) := by
    rw [Node.SpreadPercentageOnAllNotSetNodes, Node.spreadList]
    rfl
  ⟨⟨hs, rfl⟩, claim_C6 [] _ _ hs "B" [] [] ⟨[], [], 100⟩ rfl⟩

end RuleTree
